import Mathlib

/-!
# Verification of the governor execution-governor core

This file gives a shallow embedding, in Lean 4, of the parts of the
`deixis/governor` repository (Go) that its specification's frozen claims
talk about:

* the sandboxed command runner (`internal/runner`): workspace confinement,
  output caps via `limitWriter`, exit-code handling;
* the qualified-symbol splitter and the two-tier result store
  (`internal/report`);
* the coverage and `go test -json` output adapters, the package resolver,
  and the check/audit pipelines (`internal/workflow`).

Go strings are embedded as `List Char`; Go `int` as `Int` where overflow
or negativity matters and as `Nat` for list lengths; Go maps and the
LRU's linked list as association lists; fallible calls as `Except`/`Option`.
External effects (child processes, the clock, the filesystem, external
tools) are passed in explicitly as environment values, so every function
is executable and every theorem is about the translated control flow of
the source.
-/

namespace Governor

/-- Strings are embedded as lists of characters (`s.toList` of a Go string). -/
abbrev Str := List Char

/-- Embeds Go `strings.HasPrefix p pre` (is `pre` a prefix of `p`). -/
def hasPfx (pre p : Str) : Bool :=
  match pre, p with
  | [], _ => true
  | _ :: _, [] => false
  | a :: as, b :: bs => a == b && hasPfx as bs

/-- Embeds Go `strings.HasSuffix p suf` (is `suf` a suffix of `p`). -/
def hasSfx (suf p : Str) : Bool :=
  hasPfx suf.reverse p.reverse

/-- Association-list lookup, embedding a Go `map[K]V` read. Go maps
iterate in unspecified order; association lists fix insertion order,
which is one admissible order (no claim depends on it). -/
def alookup [DecidableEq κ] (k : κ) : List (κ × α) → Option α
  | [] => none
  | (k', v) :: rest => if k' = k then some v else alookup k rest

/-- Removes the (unique) entry with key `k`, embedding a Go map `delete`
or the unlinking of the list node that carries key `k`. -/
def aerase [DecidableEq κ] (k : κ) : List (κ × α) → List (κ × α)
  | [] => []
  | (k', v) :: rest => if k' = k then rest else (k', v) :: aerase k rest

/-- Upsert: stores `v` under key `k`, overwriting an existing entry
(embedding a Go map write, or rewriting the file `<k>.json`). -/
def aupsert [DecidableEq κ] (k : κ) (v : α) : List (κ × α) → List (κ × α)
  | [] => [(k, v)]
  | (k', v') :: rest => if k' = k then (k, v) :: rest else (k', v') :: aupsert k v rest

/-! ## `path/filepath` (Go standard library, Unix rules)

The runner and the package resolver call `filepath.IsAbs`, `Clean`,
`Join` and `Rel`. These are translated from the Go standard library's
documented Unix semantics, segment by segment. -/
namespace Filepath

/-- `filepath.IsAbs` on Unix: the path starts with a separator. -/
def isAbs (p : Str) : Bool :=
  hasPfx ['/'] p

/-- One step of `filepath.Clean`'s element loop: empty and `.` elements
are dropped; `..` pops the previous element unless it is itself a kept
`..` (or unless the path is rooted and nothing is left); anything else
is kept. `out` is the list of kept elements in reverse order. -/
def cleanStep (rooted : Bool) (out : List Str) (seg : Str) : List Str :=
  if seg = [] ∨ seg = ['.'] then out
  else if seg = ['.', '.'] then
    match out with
    | s :: rest => if s = ['.', '.'] then seg :: out else rest
    | [] => if rooted then [] else [seg]
  else seg :: out

/-- `filepath.Clean` on Unix. -/
def clean (p : Str) : Str :=
  if p = [] then ['.']
  else
    let rooted := isAbs p
    let segs := p.splitOn '/'
    let out := (segs.foldl (cleanStep rooted) []).reverse
    let body := List.intercalate ['/'] out
    if rooted then '/' :: body
    else if body = [] then ['.']
    else body

/-- `filepath.Join` restricted to two elements, as the sources call it:
non-empty elements are joined with a separator and the result cleaned;
all-empty input yields the empty string. -/
def join2 (a b : Str) : Str :=
  if a = [] then (if b = [] then [] else clean b)
  else if b = [] then clean a
  else clean (a ++ '/' :: b)

/-- The path elements `filepath.Rel` compares: a cleaned rooted path
keeps a leading empty element standing for the root (so that rooted and
relative paths never share elements), the cleaned `"."`-as-empty base
has none. -/
def segsOf (p : Str) : List Str :=
  if p = [] then []
  else if p = ['/'] then [[]]
  else p.splitOn '/'

/-- Strips the common leading elements of base and target, returning the
two remainders (the element scan of `filepath.Rel`). -/
def stripCommon : List Str → List Str → List Str × List Str
  | b :: bs, t :: ts =>
    if b = t then stripCommon bs ts else (b :: bs, t :: ts)
  | bs, ts => (bs, ts)

/-- `filepath.Rel base targ` on Unix; `none` embeds the
`Rel: can't make … relative to …` error. -/
def rel (base targ : Str) : Option Str :=
  let base := clean base
  let targ := clean targ
  if targ = base then some ['.']
  else
    let base := if base = ['.'] then [] else base
    if isAbs base ≠ isAbs targ then none
    else
      let (brem, trem) := stripCommon (segsOf base) (segsOf targ)
      if brem.head? = some ['.', '.'] then none
      else if brem ≠ [] then
        let dots := List.intercalate ['/'] (List.replicate brem.length ['.', '.'])
        if trem ≠ [] then some (dots ++ '/' :: List.intercalate ['/'] trem)
        else some dots
      else some (List.intercalate ['/'] trem)

end Filepath

/-! ## Sandboxed command runner (`internal/runner/runner.go`)

`Runner.Run` spawns one child process. The child and the operating
system are the environment: a `ChildEnv` records the byte chunks the
child hands to each stream writer and how `cmd.Run` returns
(`nil`, an `*exec.ExitError`, or any other error). -/
namespace Runner

/-- `runner.Runner`: the workspace boundary and the output cap.
(The `Timeout` field only parameterises the context deadline; its
effect enters the model through `CmdOutcome`.) -/
structure Runner where
  Workspace : Str
  MaxOutput : Int

/-- The errors `Run`/`resolveDir` return (Go `error` values, by
construction site). -/
inductive RunError
  /-- `fmt.Errorf("empty argv")` -/
  | emptyArgv
  /-- `fmt.Errorf("resolving cwd: %w", err)` — `filepath.Rel` failed -/
  | cwdResolve (cwd : Str)
  /-- `fmt.Errorf("cwd %q is outside workspace %q", cwd, r.Workspace)` -/
  | outsideWorkspace (cwd ws : Str)
  /-- `fmt.Errorf("executing %s: %w", argv[0], runErr)` — start failure -/
  | execFail (binary : Str)
deriving DecidableEq, Repr

/-- `Runner.resolveDir`: resolve `cwd` against the workspace and verify
the result stays inside it (`runner.go` lines 80–101). -/
def Runner.resolveDir (r : Runner) (cwd : Str) : Except RunError Str :=
  if cwd = [] then .ok r.Workspace
  else
    let dir := if Filepath.isAbs cwd then Filepath.clean cwd
               else Filepath.clean (Filepath.join2 r.Workspace cwd)
    match Filepath.rel r.Workspace dir with
    | none => .error (.cwdResolve cwd)
    | some relp =>
      if hasPfx ['.', '.'] relp then .error (.outsideWorkspace cwd r.Workspace)
      else .ok dir

/-- How `cmd.Run()` returned, as `Run` inspects it with `errors.As`. -/
inductive CmdOutcome
  /-- `runErr == nil` -/
  | ok
  /-- `runErr` is an `*exec.ExitError` with `ExitCode() == code` -/
  | exit (code : Int)
  /-- any other non-nil `runErr` (binary not found, start failure) -/
  | startFail
deriving DecidableEq, Repr

/-- What `cmd.Run` reports when the per-call timeout fires:
`exec.CommandContext` kills the child with SIGKILL and `Wait` then
returns an `*exec.ExitError` whose `ExitCode()` is `-1` (death by
signal) — not a context error. The repository's own
`TestRun_Timeout` comment records exactly this. -/
def timeoutOutcome : CmdOutcome := .exit (-1)

/-- The environment of one spawn: the fresh UUID, how `cmd.Run`
returned, and the byte chunks the child wrote to each stream (bytes as
`Nat`, chunk boundaries as the child's writes deliver them). -/
structure ChildEnv where
  runID : Str
  outcome : CmdOutcome
  stdoutChunks : List (List Nat)
  stderrChunks : List (List Nat)

/-- `limitWriter.Write` (`runner.go` lines 109–121): returns the new
buffer contents and the reported consumed count. The underlying
`bytes.Buffer.Write` always reports `len(p), nil`, so no error
component is needed. -/
def limitWrite (limit : Int) (buf : List Nat) (p : List Nat) : List Nat × Nat :=
  let remaining : Int := limit - buf.length
  if remaining ≤ 0 then (buf, p.length)
  else if (p.length : Int) > remaining then (buf ++ p.take remaining.toNat, p.length)
  else (buf ++ p, p.length)

/-- The buffer contents after the child's chunks have all passed
through one `limitWriter` (the copy loop driving `cmd.Stdout`). -/
def writeAll (limit : Int) (chunks : List (List Nat)) : List Nat :=
  chunks.foldl (fun buf p => (limitWrite limit buf p).1) []

/-- `runner.Result`. -/
structure Result where
  RunID : Str
  ExitCode : Int
  Stdout : List Nat
  Stderr : List Nat
  Truncated : Bool
deriving DecidableEq, Repr

/-- `Runner.Run` (`runner.go` lines 28–76). The second component
records whether control reached the spawn (`cmd.Run`) at all. -/
def Runner.Run (r : Runner) (env : ChildEnv) (argv : List Str) (cwd : Str) :
    Except RunError Result × Bool :=
  if argv = [] then (.error .emptyArgv, false)
  else
    match r.resolveDir cwd with
    | .error e => (.error e, false)
    | .ok _dir =>
      let stdout := writeAll r.MaxOutput env.stdoutChunks
      let stderr := writeAll r.MaxOutput env.stderrChunks
      let truncated := decide (r.MaxOutput ≤ (stdout.length : Int))
                    || decide (r.MaxOutput ≤ (stderr.length : Int))
      match env.outcome with
      | .ok => (.ok ⟨env.runID, 0, stdout, stderr, truncated⟩, true)
      | .exit c => (.ok ⟨env.runID, c, stdout, stderr, truncated⟩, true)
      | .startFail => (.error (.execFail (argv.headD [])), true)

/-- `limitWriter.Write` keeps the buffer within the cap: writing any
chunk to a buffer not exceeding `limit` leaves it not exceeding
`limit`. -/
theorem limitWrite_len_le {limit : Int} {buf p : List Nat}
    (h : (buf.length : Int) ≤ limit) :
    (((limitWrite limit buf p).1).length : Int) ≤ limit := by
  unfold limitWrite
  dsimp only
  split
  · exact h
  · split
    · rename_i hrem hlen
      simp only [List.length_append, List.length_take]
      have h0 : (0 : Int) < limit - buf.length := lt_of_not_le hrem
      have : (limit - (buf.length : Int)).toNat ≤ p.length := by omega
      have hmin : min (limit - (buf.length : Int)).toNat p.length
          = (limit - (buf.length : Int)).toNat := Nat.min_eq_left this
      rw [hmin]
      omega
    · rename_i hrem hlen
      simp only [List.length_append]
      push_cast
      omega

/-- The full stream never exceeds the cap (for a nonnegative cap). -/
theorem writeAll_len_le {limit : Int} (h0 : 0 ≤ limit) (chunks : List (List Nat)) :
    ((writeAll limit chunks).length : Int) ≤ limit := by
  unfold writeAll
  have : ∀ (cs : List (List Nat)) (buf : List Nat), (buf.length : Int) ≤ limit →
      ((cs.foldl (fun buf p => (limitWrite limit buf p).1) buf).length : Int) ≤ limit := by
    intro cs
    induction cs with
    | nil => intro buf hb; simpa using hb
    | cons c cs ih =>
      intro buf hb
      exact ih _ (limitWrite_len_le hb)
  exact this chunks [] (by simpa using h0)

/-- Inversion: a `Run` that produced a `Result` produced exactly the
capped buffers and the `≥`-test truncation flag. -/
theorem run_ok_inv {r : Runner} {env : ChildEnv} {argv : List Str} {cwd : Str}
    {res : Result} {b : Bool}
    (hok : r.Run env argv cwd = (.ok res, b)) :
    res.Stdout = writeAll r.MaxOutput env.stdoutChunks ∧
    res.Stderr = writeAll r.MaxOutput env.stderrChunks ∧
    res.Truncated = (decide (r.MaxOutput ≤ ((writeAll r.MaxOutput env.stdoutChunks).length : Int))
                  || decide (r.MaxOutput ≤ ((writeAll r.MaxOutput env.stderrChunks).length : Int))) := by
  unfold Runner.Run at hok
  split at hok
  · simp at hok
  · rename_i hargv
    revert hok
    cases hres : r.resolveDir cwd with
    | error e => intro hok; simp at hok
    | ok dir =>
      cases hout : env.outcome with
      | ok => intro hok; simp only [Prod.mk.injEq] at hok; cases hok.1; exact ⟨rfl, rfl, rfl⟩
      | exit c => intro hok; simp only [Prod.mk.injEq] at hok; cases hok.1; exact ⟨rfl, rfl, rfl⟩
      | startFail => intro hok; simp at hok

/-- **C2.** For every successful runner invocation the returned stdout
and stderr each hold at most `MaxOutput` bytes; `limitWriter.Write`
reports every chunk as fully consumed (no short writes); and
`Truncated` is `true` exactly when one of the two buffers reached the
cap. -/
theorem claim_C2 (r : Runner) (env : ChildEnv) (argv : List Str) (cwd : Str)
    (res : Result) (b : Bool) (limit : Int) (buf p : List Nat)
    (hmax : 0 ≤ r.MaxOutput)
    (hok : r.Run env argv cwd = (.ok res, b)) :
    ((res.Stdout.length : Int) ≤ r.MaxOutput ∧ (res.Stderr.length : Int) ≤ r.MaxOutput)
    ∧ (limitWrite limit buf p).2 = p.length
    ∧ (res.Truncated = true ↔
        ((res.Stdout.length : Int) = r.MaxOutput ∨ (res.Stderr.length : Int) = r.MaxOutput)) := by
  obtain ⟨ho, he, ht⟩ := run_ok_inv hok
  have hlo : ((res.Stdout.length : Int) ≤ r.MaxOutput) := ho ▸ writeAll_len_le hmax _
  have hle : ((res.Stderr.length : Int) ≤ r.MaxOutput) := he ▸ writeAll_len_le hmax _
  refine ⟨⟨hlo, hle⟩, ?_, ?_⟩
  · unfold limitWrite
    dsimp only
    split
    · rfl
    · split <;> simp
  · rw [ht, ← ho, ← he]
    simp only [Bool.or_eq_true, decide_eq_true_eq]
    constructor
    · rintro (h | h)
      · exact Or.inl (le_antisymm hlo h)
      · exact Or.inr (le_antisymm hle h)
    · rintro (h | h)
      · exact Or.inl (le_of_eq h.symm)
      · exact Or.inr (le_of_eq h.symm)

/-- Closed witness for `claim_C2`: a child that writes 5 bytes against
a 3-byte cap on stdout yields a capped, truncated result. -/
theorem claim_C2_witness :
    ((⟨"/p".toList, 3⟩ : Runner).Run ⟨"id".toList, .ok, [[1, 2], [3, 4, 5]], []⟩
        ["echo".toList] [] = (.ok ⟨"id".toList, 0, [1, 2, 3], [], true⟩, true))
    ∧ (((⟨"/p".toList, 3⟩ : Runner).Run ⟨"id".toList, .ok, [[1, 2], [3, 4, 5]], []⟩
        ["echo".toList] []).1.map (fun res =>
          decide ((res.Stdout.length : Int) ≤ 3 ∧ (res.Stderr.length : Int) ≤ 3)
          && decide (res.Truncated = true ↔
              ((res.Stdout.length : Int) = 3 ∨ (res.Stderr.length : Int) = 3)))
        = .ok true)
    ∧ (limitWrite 3 [1, 2] [3, 4, 5]).2 = 3 := by
  have h := claim_C2 ⟨"/p".toList, 3⟩ ⟨"id".toList, .ok, [[1, 2], [3, 4, 5]], []⟩
    ["echo".toList] [] ⟨"id".toList, 0, [1, 2, 3], [], true⟩ true 3 [1, 2] [3, 4, 5]
    (by decide) (by rfl)
  refine ⟨by rfl, ?_, h.2.1⟩
  rfl

/-- **C1.** A `cwd` that resolves outside the workspace makes `Run`
return the "outside workspace" error before the spawn: the returned
flag `false` records that control never reached `cmd.Run`. -/
theorem claim_C1 (r : Runner) (env : ChildEnv) (argv : List Str) (cwd : Str)
    (hargv : argv ≠ [])
    (houtside : r.resolveDir cwd = .error (.outsideWorkspace cwd r.Workspace)) :
    r.Run env argv cwd = (.error (.outsideWorkspace cwd r.Workspace), false) := by
  unfold Runner.Run
  rw [if_neg hargv, houtside]

/-- Closed witness for `claim_C1`: workspace `/project`, `cwd = "../"`
(relative ancestor traversal). -/
theorem claim_C1_witness :
    (⟨"/project".toList, 1048576⟩ : Runner).Run ⟨"id".toList, .ok, [], []⟩
        ["echo".toList] "../".toList
      = (.error (.outsideWorkspace "../".toList "/project".toList), false) :=
  claim_C1 _ _ _ _ (List.cons_ne_nil _ _) (by rfl)

/-- **C3, counterexample.** On timeout the child is killed and
`cmd.Run` yields an `*exec.ExitError` with exit code `-1`
(`timeoutOutcome`); `Run` then returns a normal `Result` that carries
the partially captured stdout — not a transport error with no result,
as the claim states. -/
theorem claim_C3_cex :
    (⟨"/project".toList, 100⟩ : Runner).Run
        ⟨"id".toList, timeoutOutcome, [[104, 105]], []⟩ ["sleep".toList, "10".toList] []
      = (.ok ⟨"id".toList, -1, [104, 105], [], false⟩, true) := by
  rfl

/-- **C3, amended.** When `cmd.Run` reports an `*exec.ExitError` — in
particular after a timeout, where the SIGKILLed child reports exit code
`-1` — the runner returns a normal `Result` carrying that exit code and
the partially captured, cap-bounded buffers; no transport error is
produced. (Transport errors arise only from start failures and
pre-spawn checks.) -/
theorem claim_C3_amended (r : Runner) (env : ChildEnv) (argv : List Str) (cwd : Str)
    (dir : Str) (c : Int)
    (hargv : argv ≠ [])
    (hdir : r.resolveDir cwd = .ok dir)
    (hout : env.outcome = .exit c) :
    r.Run env argv cwd
      = (.ok ⟨env.runID, c,
              writeAll r.MaxOutput env.stdoutChunks,
              writeAll r.MaxOutput env.stderrChunks,
              decide (r.MaxOutput ≤ ((writeAll r.MaxOutput env.stdoutChunks).length : Int))
              || decide (r.MaxOutput ≤ ((writeAll r.MaxOutput env.stderrChunks).length : Int))⟩,
         true) := by
  unfold Runner.Run
  rw [if_neg hargv, hdir, hout]

/-- Closed witness for `claim_C3_amended`, at the timeout outcome. -/
theorem claim_C3_amended_witness :
    (⟨"/project".toList, 100⟩ : Runner).Run
        ⟨"id".toList, timeoutOutcome, [[104, 105]], []⟩ ["sleep".toList, "10".toList] []
      = (.ok ⟨"id".toList, -1, [104, 105], [], false⟩, true) := by
  have h := claim_C3_amended ⟨"/project".toList, 100⟩
    ⟨"id".toList, timeoutOutcome, [[104, 105]], []⟩ ["sleep".toList, "10".toList] []
    "/project".toList (-1) (List.cons_ne_nil _ _) (by rfl) (by rfl)
  rw [h]
  rfl

end Runner

/-! ## Qualified-symbol splitting (`internal/report/report.go`) -/
namespace Report

/-- `strings.LastIndex(s, string(c))` for a one-character needle: the
index of the last occurrence of `c`, or `-1`. -/
def lastIndexC (c : Char) : Str → Int
  | [] => -1
  | x :: xs =>
    let r := lastIndexC c xs
    if 0 ≤ r then r + 1 else if x = c then 0 else -1

/-- `strings.Index(s, string(c))` for a one-character needle: the index
of the first occurrence of `c`, or `-1`. -/
def indexC (c : Char) : Str → Int
  | [] => -1
  | x :: xs =>
    if x = c then 0
    else
      let r := indexC c xs
      if 0 ≤ r then r + 1 else -1

/-- The index of the first dot after the last path separator, the pivot
of `splitSymbol` (`report.go` lines 332–342). -/
def splitDotIdx (sym : Str) : Int :=
  indexC '.' (sym.drop (lastIndexC '/' sym + 1).toNat)

/-- `report.splitSymbol`: split a Go-qualified symbol into package path
and symbol name. -/
def splitSymbol (sym : Str) : Str × Str :=
  let lastSlash := lastIndexC '/' sym
  let afterSlash := sym.drop (lastSlash + 1).toNat
  let dotIdx := indexC '.' afterSlash
  if dotIdx < 0 then (sym, [])
  else (sym.take (lastSlash + 1 + dotIdx).toNat, afterSlash.drop (dotIdx + 1).toNat)

/-- Modelled from the spec: the `join` the claim measures the splitter
against — `join(p, "") = p` and `join(p, n) = p + "." + n`. -/
def joinSymbol (pkg name : Str) : Str :=
  if name = [] then pkg else pkg ++ '.' :: name

theorem lastIndexC_ge (c : Char) (s : Str) : -1 ≤ lastIndexC c s := by
  induction s with
  | nil => simp [lastIndexC]
  | cons x xs ih =>
    simp only [lastIndexC]
    split
    · omega
    · split <;> omega

theorem indexC_drop (c : Char) (s : Str) (h : 0 ≤ indexC c s) :
    s.drop (indexC c s).toNat = c :: s.drop ((indexC c s).toNat + 1) := by
  induction s with
  | nil => simp [indexC] at h
  | cons x xs ih =>
    by_cases hx : x = c
    · simp [indexC, hx]
    · have hr : indexC c (x :: xs) = if 0 ≤ indexC c xs then indexC c xs + 1 else -1 := by
        simp [indexC, hx]
      by_cases h0 : 0 ≤ indexC c xs
      · rw [hr, if_pos h0]
        have ht : (indexC c xs + 1).toNat = (indexC c xs).toNat + 1 := by omega
        rw [ht]
        simpa using ih h0
      · rw [hr, if_neg h0] at h; omega

/-- **C6, counterexample.** `split` is not inverted by `join` on every
string: on `"governor."` (a dot as the final character right after the
absent separator) the splitter returns `("governor", "")`, whose join
is `"governor"`, not `"governor."`. -/
theorem claim_C6_cex :
    joinSymbol (splitSymbol "governor.".toList).1 (splitSymbol "governor.".toList).2
      ≠ "governor.".toList := by
  decide

/-- **C6, amended.** The splitter locates the last path separator, then
the first dot to its right; when that dot is absent the whole string is
the package with an empty symbol name (and join returns it unchanged).
`join(split(s)) = s` holds whenever that first dot, if present, is not
the final character of `s` — equivalently, whenever the split symbol
name is non-empty or the dot is absent; a string whose first
dot-after-separator is final splits to an empty name and loses that dot
under join. -/
theorem claim_C6 (sym : Str)
    (h : splitDotIdx sym < 0 ∨ (splitSymbol sym).2 ≠ []) :
    (splitDotIdx sym < 0 → splitSymbol sym = (sym, [])) ∧
    joinSymbol (splitSymbol sym).1 (splitSymbol sym).2 = sym := by
  have hsplit_neg : splitDotIdx sym < 0 → splitSymbol sym = (sym, []) := by
    intro hneg
    unfold splitSymbol
    rw [if_pos (by simpa [splitDotIdx] using hneg)]
  refine ⟨hsplit_neg, ?_⟩
  by_cases hneg : splitDotIdx sym < 0
  · rw [hsplit_neg hneg]
    simp [joinSymbol]
  · -- the dot exists: the split re-assembles around it
    have hslash := lastIndexC_ge '/' sym
    obtain ⟨L, hL⟩ : ∃ L, lastIndexC '/' sym = L := ⟨_, rfl⟩
    obtain ⟨m, hm⟩ : ∃ m, (L + 1).toNat = m := ⟨_, rfl⟩
    obtain ⟨d, hdd⟩ : ∃ d, indexC '.' (sym.drop m) = d := ⟨_, rfl⟩
    have hL1 : -1 ≤ L := hL ▸ hslash
    have hSD : splitDotIdx sym = d := by
      rw [splitDotIdx, hL, hm, hdd]
    have hd0 : 0 ≤ d := by rw [hSD] at hneg; omega
    have hsplit : splitSymbol sym
        = (sym.take (L + 1 + d).toNat, (sym.drop m).drop (d + 1).toNat) := by
      simp only [splitSymbol, hL, hm, hdd]
      rw [if_neg (by omega)]
    have hk : (L + 1 + d).toNat = m + d.toNat := by omega
    have hdrop2 : (sym.drop m).drop (d + 1).toNat = sym.drop (m + d.toNat + 1) := by
      rw [List.drop_drop]
      congr 1
      omega
    have hpivot : sym.drop (m + d.toNat) = '.' :: sym.drop (m + d.toNat + 1) := by
      have hp := indexC_drop '.' (sym.drop m) (by rw [hdd]; omega)
      rw [hdd, List.drop_drop, List.drop_drop, ← Nat.add_assoc] at hp
      exact hp
    rw [hsplit]
    by_cases hname : sym.drop (m + d.toNat + 1) = []
    · -- the dot is the final character: excluded by the hypothesis
      exfalso
      rcases h with hcase | hcase
      · rw [hSD] at hcase; omega
      · rw [hsplit, hdrop2] at hcase
        exact hcase hname
    · simp only [joinSymbol, hdrop2, hk, if_neg hname]
      conv_rhs => rw [← List.take_append_drop (m + d.toNat) sym]
      rw [hpivot]

/-- Closed witness for `claim_C6`: `"example.com/foo.TestAdd"` splits
into `("example.com/foo", "TestAdd")` and joins back to itself. -/
theorem claim_C6_witness :
    splitSymbol "example.com/foo.TestAdd".toList
        = ("example.com/foo".toList, "TestAdd".toList) ∧
    joinSymbol (splitSymbol "example.com/foo.TestAdd".toList).1
        (splitSymbol "example.com/foo.TestAdd".toList).2
      = "example.com/foo.TestAdd".toList := by
  refine ⟨by decide, (claim_C6 "example.com/foo.TestAdd".toList ?_).2⟩
  right
  decide

/-! ## Run results and the two-tier store
(`internal/report/report.go`, `disk.go`, `lru.go`)

JSON marshalling of a `RunResult` is lossless on the embedded record
type (field names are fixed by the struct tags), so the disk store is
modelled as a map from run id to the stored record: equality of
embedded records is exactly the spec's JSON-round-trip equality.
`float64` coverage values are embedded as exact rationals. -/

/-- `report.Kind`. -/
inductive Kind
  | check
  | audit
deriving DecidableEq, Repr

/-- `report.FormatIssue`. -/
structure FormatIssue where
  Package : Str
  File : Str
  Message : Str
deriving DecidableEq, Repr

/-- `report.BuildError`. -/
structure BuildError where
  Package : Str
  File : Str
  Line : Int
  Col : Int
  Message : Str
deriving DecidableEq, Repr

/-- `report.TestFailure`. -/
structure TestFailure where
  Package : Str
  Test : Str
  File : Str
  Line : Int
  Message : Str
  Output : Str
deriving DecidableEq, Repr

/-- `report.LintIssue`. -/
structure LintIssue where
  Package : Str
  File : Str
  Line : Int
  Col : Int
  Linter : Str
  Message : Str
deriving DecidableEq, Repr

/-- `report.StaticIssue`. -/
structure StaticIssue where
  Package : Str
  File : Str
  Line : Int
  Col : Int
  EndLine : Int
  EndCol : Int
  Code : Str
  Severity : Str
  Message : Str
deriving DecidableEq, Repr

/-- An exact decimal `n / 10 ^ scale`. Go `float64` coverage values
originate from `strconv.ParseFloat` on `\\d+\\.\\d+` strings; they are
embedded as the exact decimals those strings denote (`float64` rounding
never moves a value across the `[0, 100]` boundaries the claims are
about). -/
structure Dec where
  n : Nat
  scale : Nat
deriving DecidableEq, Repr

/-- The rational value of an exact decimal. -/
def Dec.toRat (d : Dec) : ℚ := (d.n : ℚ) / 10 ^ d.scale

/-- `report.CoverageEntry` (`Coverage` is a Go `float64`, embedded as
an exact decimal). -/
structure CoverageEntry where
  Package : Str
  File : Str
  Function : Str
  Coverage : Dec
deriving DecidableEq, Repr

/-- `report.ComplexityEntry`. -/
structure ComplexityEntry where
  Package : Str
  File : Str
  Function : Str
  Line : Int
  Complexity : Int
deriving DecidableEq, Repr

/-- `report.DeadFunc`. -/
structure DeadFunc where
  Package : Str
  File : Str
  Line : Int
  Function : Str
deriving DecidableEq, Repr

/-- `report.Duplicate`. -/
structure Duplicate where
  File1 : Str
  StartLine1 : Int
  EndLine1 : Int
  File2 : Str
  StartLine2 : Int
  EndLine2 : Int
  Tokens : Int
deriving DecidableEq, Repr

/-- `report.Vuln`. -/
structure Vuln where
  ID : Str
  Summary : Str
  AffectedPackage : Str
  FixedVersion : Str
  Symbols : List Str
deriving DecidableEq, Repr

/-- `report.RunResult`. -/
structure RunResult where
  ID : Str
  Kind : Kind
  AutoFixes : Int
  FormatIssues : List FormatIssue
  BuildErrors : List BuildError
  TestFailures : List TestFailure
  LintIssues : List LintIssue
  StaticIssues : List StaticIssue
  Coverage : List CoverageEntry
  Complexity : List ComplexityEntry
  DeadFuncs : List DeadFunc
  Duplicates : List Duplicate
  Vulns : List Vuln
deriving DecidableEq, Repr

/-- `report.LRUStore` over the disk store: `cache` is the doubly-linked
LRU list together with its hash-map index (one entry per key, most
recently used first); `back` is the disk directory, mapping each run id
to the record stored in `<id>.json`. The mutex serialises all
operations, so they are modelled as sequential state transformers. -/
structure LRUStore where
  cap : Nat
  cache : List (Str × RunResult)
  back : List (Str × RunResult)
deriving DecidableEq, Repr

/-- `report.NewLRUStore`: capacity below 1 is clamped to 1. -/
def NewLRUStore (cap : Int) (back : List (Str × RunResult)) : LRUStore :=
  ⟨(if cap < 1 then 1 else cap).toNat, [], back⟩

/-- `LRUStore.Save` (`lru.go` lines 37–55): update-and-move-to-front or
push-front-and-evict in the cache, then delegate to the disk store
(`DiskStore.Save` writes `<id>.json`). -/
def LRUStore.Save (s : LRUStore) (r : RunResult) : LRUStore :=
  let cache :=
    match alookup r.ID s.cache with
    | some _ => (r.ID, r) :: aerase r.ID s.cache
    | none =>
      let c := (r.ID, r) :: s.cache
      if s.cap < c.length then c.dropLast else c
  { s with cache := cache, back := aupsert r.ID r s.back }

/-- `LRUStore.Load` (`lru.go` lines 59–92): cache hit moves the entry
to the front; a miss reads the disk store (`none` embeds a read error)
and promotes the record, re-checking the cache as the code does after
re-acquiring the mutex. -/
def LRUStore.Load (s : LRUStore) (runID : Str) : Option (RunResult × LRUStore) :=
  match alookup runID s.cache with
  | some r => some (r, { s with cache := (runID, r) :: aerase runID s.cache })
  | none =>
    match alookup runID s.back with
    | none => none
    | some r =>
      let cache :=
        match alookup runID s.cache with
        | some _ => (runID, r) :: aerase runID s.cache
        | none =>
          let c := (runID, r) :: s.cache
          if s.cap < c.length then c.dropLast else c
      some (r, { s with cache := cache })

/-- A sequence of `Save` calls. -/
def saveAll (s : LRUStore) (rs : List RunResult) : LRUStore :=
  rs.foldl LRUStore.Save s

theorem alookup_eq_none {k : Str} {l : List (Str × α)}
    (h : k ∉ l.map Prod.fst) : alookup k l = none := by
  induction l with
  | nil => rfl
  | cons p rest ih =>
    simp only [List.map_cons, List.mem_cons, not_or] at h
    simp only [alookup]
    rw [if_neg (fun hk => h.1 hk.symm), ih h.2]

theorem alookup_aupsert_self (k : Str) (v : α) (l : List (Str × α)) :
    alookup k (aupsert k v l) = some v := by
  induction l with
  | nil => simp [aupsert, alookup]
  | cons p rest ih =>
    by_cases hp : p.1 = k
    · simp [aupsert, hp, alookup]
    · simpa [aupsert, hp, alookup] using ih

theorem alookup_aupsert_ne {k k' : Str} (v : α) (l : List (Str × α))
    (h : k' ≠ k) : alookup k (aupsert k' v l) = alookup k l := by
  induction l with
  | nil => simp [aupsert, alookup, fun hk => h hk]
  | cons p rest ih =>
    by_cases hp : p.1 = k'
    · simp [aupsert, hp, alookup, fun hk => h hk]
    · simp only [aupsert, if_neg hp, alookup]
      rw [ih]

/-- After a fresh-key `Save` with a cache not over capacity, the new
cache is the capped push-front. -/
theorem save_cache_fresh {s : LRUStore} {r : RunResult}
    (hfresh : r.ID ∉ s.cache.map Prod.fst)
    (hlen : s.cache.length ≤ s.cap) :
    (s.Save r).cache = List.take s.cap ((r.ID, r) :: s.cache) := by
  simp only [LRUStore.Save, alookup_eq_none hfresh]
  by_cases hc : s.cap < ((r.ID, r) :: s.cache).length
  · simp only [if_pos hc]
    have hl : ((r.ID, r) :: s.cache).length = s.cap + 1 := by
      simp only [List.length_cons] at hc ⊢
      omega
    rw [List.dropLast_eq_take, hl]
    simp
  · simp only [if_neg hc]
    rw [List.take_of_length_le (by simp only [List.length_cons] at hc ⊢; omega)]

/-- `Save` never changes the capacity, so neither does a sequence of
saves. -/
theorem saveAll_cap (rs : List RunResult) (st : LRUStore) :
    (saveAll st rs).cap = st.cap := by
  induction rs generalizing st with
  | nil => rfl
  | cons y ys ih =>
    show (saveAll (st.Save y) ys).cap = st.cap
    rw [ih]
    rfl

/-- The cache after saving fresh, pairwise-distinct records into a
store with an empty cache: the most recent `cap` of them, newest
first. -/
theorem saveAll_cache (cap : Nat) (back : List (Str × RunResult)) (rs : List RunResult)
    (hnd : (rs.map RunResult.ID).Nodup) :
    (saveAll ⟨cap, [], back⟩ rs).cache
      = List.take cap (rs.map (fun r => (r.ID, r))).reverse := by
  induction rs using List.reverseRecOn with
  | nil => simp [saveAll]
  | append_singleton xs x ih =>
    have hnd2 : (xs.map RunResult.ID ++ [x.ID]).Nodup := by
      simpa only [List.map_append, List.map_cons, List.map_nil] using hnd
    rw [List.nodup_append] at hnd2
    have hnd' : (xs.map RunResult.ID).Nodup := hnd2.1
    have hxid : x.ID ∉ xs.map RunResult.ID := fun hmem =>
      hnd2.2.2 hmem (by simp)
    have hstep : saveAll ⟨cap, [], back⟩ (xs ++ [x])
        = (saveAll ⟨cap, [], back⟩ xs).Save x := by
      simp [saveAll]
    rw [hstep]
    have hcache := ih hnd'
    have hcap_eq : (saveAll ⟨cap, [], back⟩ xs).cap = cap := saveAll_cap xs _
    have hfresh : x.ID ∉ (saveAll ⟨cap, [], back⟩ xs).cache.map Prod.fst := by
      rw [hcache]
      intro hmem
      apply hxid
      have h1 : x.ID ∈ ((xs.map (fun r => (r.ID, r))).reverse.map Prod.fst) := by
        exact List.map_subset _ (List.take_subset _ _) hmem
      simp only [List.map_reverse, List.mem_reverse, List.map_map] at h1
      simpa using h1
    have hlen : (saveAll ⟨cap, [], back⟩ xs).cache.length ≤ cap := by
      rw [hcache]
      exact List.length_take_le _ _
    rw [save_cache_fresh hfresh (by rw [hcap_eq]; exact hlen), hcap_eq, hcache]
    have htt : List.take cap ((x.ID, x)
          :: List.take cap (xs.map (fun r => (r.ID, r))).reverse)
        = List.take cap ((x.ID, x) :: (xs.map (fun r => (r.ID, r))).reverse) := by
      cases cap with
      | zero => simp
      | succ n =>
        simp only [List.take_succ_cons, List.take_take]
        rw [Nat.min_eq_left (Nat.le_succ n)]
    rw [htt]
    simp

/-- The disk contents after a sequence of saves: every record was
upserted in order. -/
theorem saveAll_back (cap : Nat) (back : List (Str × RunResult)) (rs : List RunResult) :
    (saveAll ⟨cap, [], back⟩ rs).back
      = rs.foldl (fun b r => aupsert r.ID r b) back := by
  suffices h : ∀ (rs : List RunResult) (s : LRUStore),
      (saveAll s rs).back = rs.foldl (fun b r => aupsert r.ID r b) s.back from
    h rs _
  intro rs
  induction rs with
  | nil => intro s; rfl
  | cons y ys ih =>
    intro s
    simp only [saveAll, List.foldl_cons] at *
    rw [ih]
    rfl

theorem foldl_aupsert_first {r0 : RunResult} {rest : List RunResult}
    (h : r0.ID ∉ rest.map RunResult.ID) (back : List (Str × RunResult)) :
    alookup r0.ID (rest.foldl (fun b r => aupsert r.ID r b) (aupsert r0.ID r0 back))
      = some r0 := by
  suffices hgen : ∀ (rest : List RunResult) (b : List (Str × RunResult)),
      r0.ID ∉ rest.map RunResult.ID → alookup r0.ID b = some r0 →
      alookup r0.ID (rest.foldl (fun b r => aupsert r.ID r b) b) = some r0 by
    exact hgen rest _ h (alookup_aupsert_self _ _ _)
  intro rest
  induction rest with
  | nil => intro b _ hb; simpa using hb
  | cons y ys ih =>
    intro b hmem hb
    simp only [List.map_cons, List.mem_cons, not_or] at hmem
    simp only [List.foldl_cons]
    exact ih _ hmem.2 (by rw [alookup_aupsert_ne _ _ (fun hy => hmem.1 hy.symm), hb])

/-- **C5.** Two-tier store, capacity `cap ≥ 1`: after `Save r`,
`Load r.ID` succeeds and returns a record equal to `r` (JSON-round-trip
equality is equality of the embedded records). After saving more than
`cap` records with pairwise-distinct ids into a fresh store, the first
(oldest by last access) is gone from the in-memory cache, yet is still
on disk, and a `Load` of its id succeeds from the disk store and
promotes it back into the cache. -/
theorem claim_C5 (s : LRUStore) (r : RunResult)
    (r0 : RunResult) (rest : List RunResult) (cap : Nat)
    (hscap : 1 ≤ s.cap) (hcap : 1 ≤ cap)
    (hnd : ((r0 :: rest).map RunResult.ID).Nodup)
    (hlen : cap < (r0 :: rest).length) :
    (∃ s', (s.Save r).Load r.ID = some (r, s'))
    ∧ alookup r0.ID (saveAll ⟨cap, [], []⟩ (r0 :: rest)).cache = none
    ∧ alookup r0.ID (saveAll ⟨cap, [], []⟩ (r0 :: rest)).back = some r0
    ∧ (∃ st', (saveAll ⟨cap, [], []⟩ (r0 :: rest)).Load r0.ID = some (r0, st')
        ∧ alookup r0.ID st'.cache = some r0) := by
  have hr0 : r0.ID ∉ rest.map RunResult.ID := by
    have hnd2 := hnd
    simp only [List.map_cons] at hnd2
    exact (List.nodup_cons.mp hnd2).1
  -- the cache after all saves
  have hcache := saveAll_cache cap [] (r0 :: rest) hnd
  have hback := saveAll_back cap [] (r0 :: rest)
  have hrevsplit : ((r0 :: rest).map (fun r => (r.ID, r))).reverse
      = (rest.map (fun r => (r.ID, r))).reverse ++ [(r0.ID, r0)] := by
    simp
  have hcaple : cap ≤ (rest.map (fun r => (r.ID, r))).reverse.length := by
    simp only [List.length_reverse, List.length_map]
    simp only [List.length_cons] at hlen
    omega
  have htake : List.take cap ((r0 :: rest).map (fun r => (r.ID, r))).reverse
      = List.take cap (rest.map (fun r => (r.ID, r))).reverse := by
    rw [hrevsplit, List.take_append_of_le_length hcaple]
  have hout : alookup r0.ID (saveAll ⟨cap, [], []⟩ (r0 :: rest)).cache = none := by
    rw [hcache, htake]
    apply alookup_eq_none
    intro hmem
    apply hr0
    have h1 := List.map_subset (f := Prod.fst) (List.take_subset _ _) hmem
    simp only [List.map_reverse, List.mem_reverse, List.map_map] at h1
    simpa using h1
  have hdisk : alookup r0.ID (saveAll ⟨cap, [], []⟩ (r0 :: rest)).back = some r0 := by
    rw [hback]
    simpa using foldl_aupsert_first hr0 []
  refine ⟨?_, hout, hdisk, ?_⟩
  · -- save-then-load round trip
    have hhead : ∃ t, (s.Save r).cache = (r.ID, r) :: t := by
      simp only [LRUStore.Save]
      cases halk : alookup r.ID s.cache with
      | some v => exact ⟨_, rfl⟩
      | none =>
        by_cases hc : s.cap < ((r.ID, r) :: s.cache).length
        · simp only [if_pos hc]
          have hne : s.cache ≠ [] := by
            intro hnil
            rw [hnil] at hc
            simp only [List.length_cons, List.length_nil] at hc
            omega
          exact ⟨_, List.dropLast_cons_of_ne_nil hne⟩
        · simp only [if_neg hc]
          exact ⟨_, rfl⟩
    obtain ⟨t, ht⟩ := hhead
    refine ⟨{ s.Save r with cache := (r.ID, r) :: aerase r.ID ((s.Save r).cache) }, ?_⟩
    simp only [LRUStore.Load, ht, alookup]
    simp [ht]
  · -- load of the evicted record: disk hit, promotion to the front
    have hcap_eq : (saveAll ⟨cap, [], []⟩ (r0 :: rest)).cap = cap :=
      saveAll_cap (r0 :: rest) _
    have hclen : (saveAll ⟨cap, [], []⟩ (r0 :: rest)).cache.length = cap := by
      rw [hcache, htake, List.length_take]
      omega
    have hcne : (saveAll ⟨cap, [], []⟩ (r0 :: rest)).cache ≠ [] := by
      intro hnil
      rw [hnil] at hclen
      simp at hclen
      omega
    simp only [LRUStore.Load, hout, hdisk]
    refine ⟨_, rfl, ?_⟩
    simp only [hout]
    rw [hcap_eq]
    have hgt : cap < ((r0.ID, r0) :: (saveAll ⟨cap, [], []⟩ (r0 :: rest)).cache).length := by
      simp only [List.length_cons, hclen]
      omega
    simp only [if_pos hgt]
    rw [List.dropLast_cons_of_ne_nil hcne]
    simp [alookup]

/-- An otherwise-empty run result with the given id (for concrete store
scenarios). -/
def emptyRun (id : Str) : RunResult :=
  ⟨id, .check, 0, [], [], [], [], [], [], [], [], [], []⟩

/-- Closed witness for `claim_C5`: capacity 1, save `"a"` then `"b"`;
`"a"` is evicted from memory, still on disk, and loads back. -/
theorem claim_C5_witness :
    (∃ s', ((⟨1, [], []⟩ : LRUStore).Save (emptyRun "a".toList)).Load "a".toList
        = some (emptyRun "a".toList, s'))
    ∧ alookup "a".toList
        (saveAll ⟨1, [], []⟩ [emptyRun "a".toList, emptyRun "b".toList]).cache = none
    ∧ alookup "a".toList
        (saveAll ⟨1, [], []⟩ [emptyRun "a".toList, emptyRun "b".toList]).back
        = some (emptyRun "a".toList)
    ∧ (∃ st', (saveAll ⟨1, [], []⟩ [emptyRun "a".toList, emptyRun "b".toList]).Load "a".toList
        = some (emptyRun "a".toList, st')
        ∧ alookup "a".toList st'.cache = some (emptyRun "a".toList)) :=
  claim_C5 ⟨1, [], []⟩ (emptyRun "a".toList) (emptyRun "a".toList)
    [emptyRun "b".toList] 1 (by decide) (by decide) (by decide) (by decide)

end Report

/-! ## Workflow engine: coverage adapter
(`internal/workflow/coverage.go`, `engine.go`) -/
namespace Workflow

/-- `workflow.derivePackageFromFile` (`engine.go` lines 172–181). -/
def derivePackageFromFile (file : Str) : Str :=
  if file = [] then []
  else
    let idx := Report.lastIndexC '/' file
    if idx < 0 then ['.']
    else file.take idx.toNat

/-- The RE2 character class `\s` (`[\t\n\f\r ]`). -/
def reSpace (c : Char) : Bool :=
  c = '\t' || c = '\n' || c = '\x0c' || c = '\r' || c = ' '

/-- `unicode.IsSpace` restricted to the ASCII range, as
`strings.TrimSpace` uses it on this tool output. -/
def goIsSpace (c : Char) : Bool :=
  c = '\t' || c = '\n' || c = '\x0b' || c = '\x0c' || c = '\r' || c = ' '

/-- `strings.TrimSpace`. -/
def trimSpace (s : Str) : Str :=
  ((s.dropWhile goIsSpace).reverse.dropWhile goIsSpace).reverse

/-- The numeric value of a decimal digit string (`strconv` digit
accumulation). -/
def natOfDigits (s : Str) : Nat :=
  s.foldl (fun n c => 10 * n + (c.toNat - 48)) 0

/-- The exact value `strconv.ParseFloat` reads from `<ints>.<fracs>`
(the regex guarantees both digit runs are non-empty, so parsing cannot
fail): `ints.fracs` denotes `(ints * 10^k + fracs) / 10^k`. -/
def pctVal (ints fracs : Str) : Report.Dec :=
  ⟨natOfDigits ints * 10 ^ fracs.length + natOfDigits fracs, fracs.length⟩

/-- The anchored regular expression
`^(.+):(\d+):\s+(\S+)\s+(\d+\.\d+)%$` of `coverFuncLine`
(`coverage.go` line 54), realised as a right-to-left scan. Every
boundary in the pattern is forced (digits against `:` or `.`,
non-space against space, the final `%`), so the backtracking match and
this scan pick the same submatches: `(file, line, funcName, percent)`. -/
def matchCoverLine (line : Str) : Option (Str × Str × Str × Report.Dec) :=
  match line.reverse with
  | '%' :: r1 =>
    let (fracRev, r2) := r1.span Char.isDigit
    if fracRev = [] then none else
    match r2 with
    | '.' :: r3 =>
      let (intRev, r4) := r3.span Char.isDigit
      if intRev = [] then none else
      let (ws2, r5) := r4.span reSpace
      if ws2 = [] then none else
      let (fnRev, r6) := r5.span (fun c => !reSpace c)
      if fnRev = [] then none else
      let (ws1, r7) := r6.span reSpace
      if ws1 = [] then none else
      match r7 with
      | ':' :: r8 =>
        let (numRev, r9) := r8.span Char.isDigit
        if numRev = [] then none else
        match r9 with
        | ':' :: r10 =>
          if r10 = [] then none
          else some (r10.reverse, numRev.reverse, fnRev.reverse,
                     pctVal intRev.reverse fracRev.reverse)
        | _ => none
      | _ => none
    | _ => none
  | _ => none

/-- `workflow.parseCoverFunc` (`coverage.go` lines 56–97): split on
newlines, trim, match each line against `coverFuncLine`, skip the
`total` file group, derive the package from the file path. -/
def parseCoverFunc (data : Str) : List Report.CoverageEntry :=
  (data.splitOn '\n').filterMap fun rawLine =>
    let line := trimSpace rawLine
    if line = [] then none
    else
      match matchCoverLine line with
      | none => none
      | some (file, _lineNo, funcName, pct) =>
        if file = "total".toList then none
        else some ⟨derivePackageFromFile file, file, funcName, pct⟩

theorem pctVal_nonneg (ints fracs : Str) : 0 ≤ (pctVal ints fracs).toRat := by
  unfold pctVal Report.Dec.toRat
  positivity

/-- Any percentage the line matcher produces is nonnegative (the
pattern admits only unsigned decimals). -/
theorem matchCoverLine_nonneg {l a b c : Str} {q : Report.Dec}
    (h : matchCoverLine l = some (a, b, c, q)) : 0 ≤ q.toRat := by
  unfold matchCoverLine at h
  repeat' split at h
  all_goals simp only [Option.some.injEq, Prod.mk.injEq, reduceCtorEq] at h
  obtain ⟨-, -, -, hq⟩ := h
  rw [← hq]
  exact pctVal_nonneg _ _

/-- **C7, counterexample.** The adapter neither clamps nor discards
out-of-range percentages: a `150.0%` line is emitted verbatim, with a
percentage outside `[0, 100]`. -/
theorem claim_C7_cex :
    (parseCoverFunc "a.go:1:\tF\t150.0%".toList).map Report.CoverageEntry.Coverage
      = [⟨1500, 1⟩]
    ∧ (Report.Dec.mk 1500 1).toRat = 150
    ∧ ¬ ((Report.Dec.mk 1500 1).toRat ≤ 100) := by
  refine ⟨by rfl, by norm_num [Report.Dec.toRat], by norm_num [Report.Dec.toRat]⟩

/-- **C7, amended.** Every emitted coverage record's percentage is
nonnegative — the pattern `(\d+\.\d+)%` admits only unsigned decimals —
and no record is emitted for the `total` file group; but values above
100 are passed through unchanged rather than clamped or discarded. -/
theorem claim_C7 (data : Str) (e : Report.CoverageEntry)
    (hmem : e ∈ parseCoverFunc data) :
    0 ≤ e.Coverage.toRat ∧ e.File ≠ "total".toList := by
  rw [parseCoverFunc, List.mem_filterMap] at hmem
  obtain ⟨rawLine, -, hf⟩ := hmem
  dsimp only at hf
  split at hf
  · simp at hf
  · split at hf
    · simp at hf
    · rename_i file lineNo funcName pct hmatch
      split at hf
      · simp at hf
      · rename_i htotal
        simp only [Option.some.injEq] at hf
        subst hf
        exact ⟨matchCoverLine_nonneg hmatch, htotal⟩

/-- Closed witness for `claim_C7`: a well-formed 75.5% line. -/
theorem claim_C7_witness :
    0 ≤ (Report.CoverageEntry.mk "pkg".toList "pkg/a.go".toList "FuncA".toList
          ⟨755, 1⟩).Coverage.toRat
    ∧ (Report.CoverageEntry.mk "pkg".toList "pkg/a.go".toList "FuncA".toList
          ⟨755, 1⟩).File ≠ "total".toList :=
  claim_C7 "pkg/a.go:12:\tFuncA\t75.5%".toList _ (by decide)

/-! ## Test-driver JSON adapter (`internal/workflow/test.go`) -/

/-- `workflow.test2jsonEvent`: the fields `parseTestOutput` reads from
one line of `go test -json` output (`Elapsed` is decoded but never
used, and is omitted). -/
structure TestEvent where
  Action : Str
  Package : Str
  Test : Str
  Output : Str
  ImportPath : Str
deriving DecidableEq, Repr

/-- `workflow.TestFailure`. -/
structure TestFailure where
  Test : Str
  Package : Str
  Output : Str
deriving DecidableEq, Repr

/-- `workflow.BuildError`. -/
structure BuildError where
  ImportPath : Str
  Output : Str
deriving DecidableEq, Repr

/-- `workflow.TestSummary`. -/
structure TestSummary where
  Status : Str
  Total : Int
  Passed : Int
  Failed : Int
  Skipped : Int
  BuildErrors : List BuildError
  Errors : List TestFailure
deriving DecidableEq, Repr

/-- The loop state of `parseTestOutput`: the summary under
construction, the per-`(package, test)` output accumulators, the set of
failed tests, the per-import-path build accumulators, and the set of
failed builds (sets keep first-insertion order). -/
structure ParseState where
  s : TestSummary
  outputs : List ((Str × Str) × Str)
  failedTests : List (Str × Str)
  buildOutputs : List (Str × Str)
  failedBuilds : List Str
deriving DecidableEq, Repr

/-- Appends `out` to the accumulator under `k`, creating it first when
absent (`outputs[key].WriteString(ev.Output)` after the `ok` check). -/
def appendAcc [DecidableEq κ] (k : κ) (out : Str) (l : List (κ × Str)) : List (κ × Str) :=
  match alookup k l with
  | some _ => l.map fun p => if p.1 = k then (p.1, p.2 ++ out) else p
  | none => l ++ [(k, out)]

/-- Adds `k` to a set (`m[k] = true`). -/
def addSet [DecidableEq κ] (k : κ) (l : List κ) : List κ :=
  if k ∈ l then l else l ++ [k]

/-- One iteration of the event loop of `parseTestOutput` (`test.go`
lines 139–189), for one successfully decoded event. -/
def stepEvent (st : ParseState) (ev : TestEvent) : ParseState :=
  if ev.Action = "output".toList then
    if ev.Test ≠ [] then
      { st with outputs := appendAcc (ev.Package, ev.Test) ev.Output st.outputs }
    else st
  else if ev.Action = "pass".toList then
    if ev.Test ≠ [] then
      { st with s := { st.s with Total := st.s.Total + 1, Passed := st.s.Passed + 1 } }
    else st
  else if ev.Action = "fail".toList then
    if ev.Test ≠ [] then
      { st with
        s := { st.s with
               Total := st.s.Total + 1
               Failed := st.s.Failed + 1
               Status := "FAIL".toList },
        failedTests := addSet (ev.Package, ev.Test) st.failedTests }
    else if ev.Package ≠ [] ∧ ev.Test = [] then
      { st with s := { st.s with Status := "FAIL".toList } }
    else st
  else if ev.Action = "skip".toList then
    if ev.Test ≠ [] then
      { st with s := { st.s with Total := st.s.Total + 1, Skipped := st.s.Skipped + 1 } }
    else st
  else if ev.Action = "build-output".toList then
    let ip := if ev.ImportPath = [] then ev.Package else ev.ImportPath
    if ip ≠ [] then { st with buildOutputs := appendAcc ip ev.Output st.buildOutputs }
    else st
  else if ev.Action = "build-fail".toList then
    let ip := if ev.ImportPath = [] then ev.Package else ev.ImportPath
    { st with
      failedBuilds := if ip ≠ [] then addSet ip st.failedBuilds else st.failedBuilds,
      s := { st.s with Status := "FAIL".toList } }
  else st

/-- `strings.TrimRight(s, "\n")`. -/
def trimRightNl (s : Str) : Str :=
  (s.reverse.dropWhile (fun c => c = '\n')).reverse

/-- The initial state: `&TestSummary{Status: "PASS"}` and empty maps. -/
def initParseState : ParseState :=
  ⟨⟨"PASS".toList, 0, 0, 0, 0, [], []⟩, [], [], [], []⟩

/-- The two closing loops of `parseTestOutput` (`test.go` lines
191–212): build `Errors` from the failed-test set and `BuildErrors`
from the failed-build set. -/
def finishParse (st : ParseState) : TestSummary :=
  { st.s with
    Errors := st.failedTests.map fun k =>
      ⟨k.2, k.1, (alookup k st.outputs).getD []⟩,
    BuildErrors := st.failedBuilds.map fun ip =>
      ⟨ip, trimRightNl ((alookup ip st.buildOutputs).getD [])⟩ }

/-- `parseTestOutput` on a decoded event stream. -/
def parseEvents (evs : List TestEvent) : TestSummary :=
  finishParse (evs.foldl stepEvent initParseState)

/-- `workflow.parseTestOutput` (`test.go` lines 118–215). The input is
the line stream after splitting on newlines: `none` stands for a line
that is blank after trimming or whose `json.Unmarshal` fails (both are
skipped by `continue`), `some ev` for a decoded event. -/
def parseTestOutput (lines : List (Option TestEvent)) : TestSummary :=
  finishParse (lines.foldl
    (fun st l => match l with | none => st | some ev => stepEvent st ev)
    initParseState)

/-- The condition under which a decoded event increments `Passed`. -/
abbrev passCond (e : TestEvent) : Prop := e.Action = "pass".toList ∧ e.Test ≠ []

/-- The condition under which a decoded event increments `Failed`. -/
abbrev failCond (e : TestEvent) : Prop := e.Action = "fail".toList ∧ e.Test ≠ []

/-- The condition under which a decoded event increments `Skipped`. -/
abbrev skipCond (e : TestEvent) : Prop := e.Action = "skip".toList ∧ e.Test ≠ []

/-- The condition under which a decoded event sets the status to FAIL:
a `fail` with a test name or a package name, or any `build-fail`. -/
abbrev failishCond (e : TestEvent) : Prop :=
  (e.Action = "fail".toList ∧ (e.Test ≠ [] ∨ e.Package ≠ [])) ∨ e.Action = "build-fail".toList

set_option maxHeartbeats 4000000 in
/-- How one event moves the counters and the status. -/
theorem stepEvent_summary (st : ParseState) (ev : TestEvent) :
    (stepEvent st ev).s.Passed = st.s.Passed + (if passCond ev then 1 else 0)
    ∧ (stepEvent st ev).s.Failed = st.s.Failed + (if failCond ev then 1 else 0)
    ∧ (stepEvent st ev).s.Skipped = st.s.Skipped + (if skipCond ev then 1 else 0)
    ∧ (stepEvent st ev).s.Total = st.s.Total
        + (if passCond ev then 1 else 0) + (if failCond ev then 1 else 0)
        + (if skipCond ev then 1 else 0)
    ∧ (stepEvent st ev).s.Status = (if failishCond ev then "FAIL".toList else st.s.Status) := by
  unfold stepEvent
  split_ifs <;>
    refine ⟨?_, ?_, ?_, ?_, ?_⟩ <;>
    (try simp_all +decide [passCond, failCond, skipCond, failishCond]) <;>
    (first | omega | (split <;> rfl))

/-- Counting over a singleton, in `Int` form (used to peel one event
off a `countP`). -/
theorem countOne_pass (ev : TestEvent) :
    (if passCond ev then (1 : Int) else 0)
      = ((List.countP (fun e => decide (passCond e)) [ev] : Nat) : Int) := by
  by_cases hc : passCond ev
  · rw [if_pos hc, List.countP_cons_of_pos _ _ (by simpa using hc)]
    rfl
  · rw [if_neg hc, List.countP_cons_of_neg _ _ (by simpa using hc)]
    rfl

theorem countOne_fail (ev : TestEvent) :
    (if failCond ev then (1 : Int) else 0)
      = ((List.countP (fun e => decide (failCond e)) [ev] : Nat) : Int) := by
  by_cases hc : failCond ev
  · rw [if_pos hc, List.countP_cons_of_pos _ _ (by simpa using hc)]
    rfl
  · rw [if_neg hc, List.countP_cons_of_neg _ _ (by simpa using hc)]
    rfl

theorem countOne_skip (ev : TestEvent) :
    (if skipCond ev then (1 : Int) else 0)
      = ((List.countP (fun e => decide (skipCond e)) [ev] : Nat) : Int) := by
  by_cases hc : skipCond ev
  · rw [if_pos hc, List.countP_cons_of_pos _ _ (by simpa using hc)]
    rfl
  · rw [if_neg hc, List.countP_cons_of_neg _ _ (by simpa using hc)]
    rfl

/-- Event-loop characterisation of the counters and status. -/
theorem foldEvents_summary (evs : List TestEvent) : ∀ st : ParseState,
    (evs.foldl stepEvent st).s.Passed
      = st.s.Passed + evs.countP (fun e => decide (passCond e))
    ∧ (evs.foldl stepEvent st).s.Failed
      = st.s.Failed + evs.countP (fun e => decide (failCond e))
    ∧ (evs.foldl stepEvent st).s.Skipped
      = st.s.Skipped + evs.countP (fun e => decide (skipCond e))
    ∧ (evs.foldl stepEvent st).s.Total
      = st.s.Total + evs.countP (fun e => decide (passCond e))
        + evs.countP (fun e => decide (failCond e))
        + evs.countP (fun e => decide (skipCond e))
    ∧ (evs.foldl stepEvent st).s.Status
      = (if evs.any (fun e => decide (failishCond e)) then "FAIL".toList else st.s.Status) := by
  induction evs with
  | nil => intro st; simp
  | cons ev evs ih =>
    intro st
    obtain ⟨hp, hf, hs, ht, hst⟩ := ih (stepEvent st ev)
    obtain ⟨sp, sf, ss, stt, sst⟩ := stepEvent_summary st ev
    have hcons : ev :: evs = [ev] ++ evs := rfl
    refine ⟨?_, ?_, ?_, ?_, ?_⟩
    · rw [List.foldl_cons, hp, sp, hcons, List.countP_append, countOne_pass]
      push_cast
      omega
    · rw [List.foldl_cons, hf, sf, hcons, List.countP_append, countOne_fail]
      push_cast
      omega
    · rw [List.foldl_cons, hs, ss, hcons, List.countP_append, countOne_skip]
      push_cast
      omega
    · rw [List.foldl_cons, ht, stt, hcons, List.countP_append, List.countP_append,
        List.countP_append, countOne_pass, countOne_fail, countOne_skip]
      push_cast
      omega
    · rw [List.foldl_cons, hst, sst, List.any_cons]
      by_cases hc : failishCond ev
      · have hq : decide (failishCond ev) = true := by simpa using hc
        rw [hq, Bool.true_or, if_pos hc, ite_self, if_pos rfl]
      · have hq : decide (failishCond ev) = false := by simpa using hc
        rw [hq, Bool.false_or, if_neg hc]

/-- Skipping undecodable lines is invisible to the loop. -/
theorem foldLines_eq (lines : List (Option TestEvent)) : ∀ st : ParseState,
    lines.foldl (fun st l => match l with | none => st | some ev => stepEvent st ev) st
      = lines.reduceOption.foldl stepEvent st := by
  induction lines with
  | nil => intro st; simp
  | cons l rest ih =>
    intro st
    cases l with
    | none => simp [List.reduceOption_cons_of_none, ih]
    | some ev => simp [List.reduceOption_cons_of_some, ih]

/-- **C8, counterexample.** A `fail` event with neither a test name nor
a package name leaves the summary status `PASS`: it does not mark the
summary as FAIL, contrary to the claim's unconditional reading. -/
theorem claim_C8_cex :
    (parseTestOutput [some ⟨"fail".toList, [], [], [], []⟩]).Status = "PASS".toList
    ∧ (parseTestOutput [some ⟨"fail".toList, [], [], [], []⟩]).Status ≠ "FAIL".toList := by
  constructor
  · rfl
  · decide

/-- **C8, amended.** Each `pass`/`fail`/`skip` event carrying a test
name increments the matching counter, and the total is their sum; the
summary status is FAIL exactly when some event is a `fail` carrying a
test name **or a package name** (a `fail` with neither is ignored), or
a `build-fail`; and lines that fail to decode are skipped with no
effect on the resulting summary at all. -/
theorem claim_C8 (lines : List (Option TestEvent)) (evs : List TestEvent) :
    parseTestOutput lines = parseEvents lines.reduceOption
    ∧ (parseEvents evs).Passed = evs.countP (fun e => decide (passCond e))
    ∧ (parseEvents evs).Failed = evs.countP (fun e => decide (failCond e))
    ∧ (parseEvents evs).Skipped = evs.countP (fun e => decide (skipCond e))
    ∧ (parseEvents evs).Total
        = (parseEvents evs).Passed + (parseEvents evs).Failed + (parseEvents evs).Skipped
    ∧ ((parseEvents evs).Status = "FAIL".toList ↔ ∃ e ∈ evs, failishCond e) := by
  obtain ⟨hp, hf, hs, ht, hst⟩ := foldEvents_summary evs initParseState
  have hfinish : ∀ st : ParseState, (finishParse st).Passed = st.s.Passed
      ∧ (finishParse st).Failed = st.s.Failed
      ∧ (finishParse st).Skipped = st.s.Skipped
      ∧ (finishParse st).Total = st.s.Total
      ∧ (finishParse st).Status = st.s.Status := fun st => ⟨rfl, rfl, rfl, rfl, rfl⟩
  obtain ⟨gp, gf, gs, gt, gst⟩ := hfinish (evs.foldl stepEvent initParseState)
  refine ⟨?_, ?_, ?_, ?_, ?_, ?_⟩
  · unfold parseTestOutput parseEvents
    rw [foldLines_eq]
  · unfold parseEvents; rw [gp, hp]; simp [initParseState]
  · unfold parseEvents; rw [gf, hf]; simp [initParseState]
  · unfold parseEvents; rw [gs, hs]; simp [initParseState]
  · unfold parseEvents
    rw [gt, ht, gp, hp, gf, hf, gs, hs]
    simp [initParseState]
  · unfold parseEvents
    rw [gst, hst]
    by_cases hany : evs.any (fun e => decide (failishCond e))
    · rw [if_pos hany]
      simp only [List.any_eq_true, decide_eq_true_eq] at hany
      exact iff_of_true rfl hany
    · rw [if_neg hany]
      refine iff_of_false (by decide) fun hex => ?_
      exact hany (by simpa [List.any_eq_true, decide_eq_true_eq] using hex)

/-! ## Package resolution (`internal/workflow/engine.go`) -/

/-- The two `workflow.Engine` fields `ResolvePackages` reads. -/
structure Engine where
  Workspace : Str
  RepoRoot : Str

/-- The body of `ResolvePackages`' loop (`engine.go` lines 48–71):
an absolute path is made repo-root-relative (dropped silently when it
escapes the root), anything else passes through. -/
def resolveOne (e : Engine) (acc : List Str) (p : Str) : List Str :=
  if Filepath.isAbs p then
    let base := if e.RepoRoot = [] then e.Workspace else e.RepoRoot
    match Filepath.rel base p with
    | none => acc
    | some r =>
      if hasPfx ['.', '.'] r then acc
      else
        let pattern := '.' :: '/' :: r
        if ¬ hasSfx "...".toList pattern then acc ++ [pattern ++ "/...".toList]
        else acc ++ [pattern]
  else acc ++ [p]

/-- `Engine.ResolvePackages` (`engine.go` lines 42–77). -/
def Engine.ResolvePackages (e : Engine) (packages : List Str) : List Str :=
  if packages = [] then ["./...".toList]
  else
    let resolved := packages.foldl (resolveOne e) []
    if resolved = [] then ["./...".toList] else resolved

/-- Everything `resolveOne` appends is a relative pattern or an import
path: never an absolute path. -/
theorem resolveOne_not_abs (e : Engine) (acc : List Str) (p q : Str)
    (hacc : ∀ x ∈ acc, Filepath.isAbs x = false)
    (hq : q ∈ resolveOne e acc p) : Filepath.isAbs q = false := by
  unfold resolveOne at hq
  split at hq
  · dsimp only at hq
    split at hq
    · exact hacc q hq
    · split at hq
      · exact hacc q hq
      · split at hq <;>
          rcases List.mem_append.mp hq with hmem | hmem
        · exact hacc q hmem
        · simp only [List.mem_singleton] at hmem
          subst hmem
          rfl
        · exact hacc q hmem
        · simp only [List.mem_singleton] at hmem
          subst hmem
          rfl
  · rcases List.mem_append.mp hq with hmem | hmem
    · exact hacc q hmem
    · simp only [List.mem_singleton] at hmem
      subst hmem
      rename_i habs
      simpa using habs

/-- The whole loop only accumulates non-absolute entries. -/
theorem foldResolve_not_abs (e : Engine) (ps : List Str) :
    ∀ (acc : List Str), (∀ x ∈ acc, Filepath.isAbs x = false) →
      ∀ q ∈ ps.foldl (resolveOne e) acc, Filepath.isAbs q = false := by
  induction ps with
  | nil => intro acc hacc q hq; exact hacc q hq
  | cons p ps ih =>
    intro acc hacc q hq
    exact ih _ (fun x hx => resolveOne_not_abs e acc p x hacc hx) q hq

/-- A non-absolute entry passes through the loop body unchanged. -/
theorem resolveOne_passthrough (e : Engine) (acc : List Str) (p : Str)
    (hp : Filepath.isAbs p = false) : resolveOne e acc p = acc ++ [p] := by
  unfold resolveOne
  rw [if_neg (by simp [hp])]

/-- A list of non-absolute entries folds to itself. -/
theorem foldResolve_passthrough (e : Engine) (ps : List Str)
    (hps : ∀ x ∈ ps, Filepath.isAbs x = false) :
    ∀ acc : List Str, ps.foldl (resolveOne e) acc = acc ++ ps := by
  induction ps with
  | nil => intro acc; simp
  | cons p ps ih =>
    intro acc
    rw [List.foldl_cons, resolveOne_passthrough e acc p (hps p (by simp)),
      ih (fun x hx => hps x (by simp [hx]))]
    simp

/-- Every output entry of `ResolvePackages` is non-absolute. -/
theorem resolvePackages_not_abs (e : Engine) (xs : List Str) :
    ∀ q ∈ e.ResolvePackages xs, Filepath.isAbs q = false := by
  intro q hq
  unfold Engine.ResolvePackages at hq
  split at hq
  · simp only [List.mem_singleton] at hq
    subst hq
    rfl
  · dsimp only at hq
    split at hq
    · simp only [List.mem_singleton] at hq
      subst hq
      rfl
    · exact foldResolve_not_abs e xs [] (by simp) q hq

/-- **C10.** Package resolution is idempotent: every element of the
output is a relative pattern or import path (never an absolute path),
such elements pass through a second application unchanged, and hence
`ResolvePackages (ResolvePackages xs) = ResolvePackages xs` — which is
what lets the per-step helpers re-resolve the already-resolved list. -/
theorem claim_C10 (e : Engine) (xs : List Str) :
    (∀ q ∈ e.ResolvePackages xs, Filepath.isAbs q = false)
    ∧ e.ResolvePackages (e.ResolvePackages xs) = e.ResolvePackages xs := by
  refine ⟨resolvePackages_not_abs e xs, ?_⟩
  have hne : e.ResolvePackages xs ≠ [] := by
    unfold Engine.ResolvePackages
    split
    · simp
    · dsimp only
      split
      · simp
      · assumption
  have hfold := foldResolve_passthrough e (e.ResolvePackages xs)
    (resolvePackages_not_abs e xs) []
  conv_lhs => rw [Engine.ResolvePackages]
  rw [if_neg hne, hfold]
  simp only [List.nil_append]
  rw [if_neg hne]

/-! ## Check pipeline (`internal/workflow/check.go`)

`Engine.Check`'s step loop consults three helpers (`runTest`,
`runLint`, `runStaticcheck`) whose outcomes depend on external tools;
they are the environment, indexed by loop iteration. The `RunResult`
record appends inside the fail branches are not needed by any claim
and are elided; the step-status vector and `failedIdx` are translated
in full. -/

/-- How one `runTest` call returned: a launch error, or a parsed
summary (its `Status` field, and its `String()` rendering carried
opaquely for `Output`). -/
inductive TestOut
  | err (msg : Str)
  | summary (status : Str) (render : Str)
deriving DecidableEq, Repr

/-- How one `runLint`/`runStaticcheck` call returned: an
`ErrToolUnavailable`, another error, or a parsed result with `count`
issues (rendering carried opaquely). -/
inductive ToolOut
  | unavail (msg : Str)
  | err (msg : Str)
  | issues (count : Nat) (render : Str)
deriving DecidableEq, Repr

/-- The helper outcomes available to one loop iteration. -/
structure StepEnv where
  test : TestOut
  lint : ToolOut
  staticcheck : ToolOut
deriving DecidableEq, Repr

/-- `workflow.StepResult`. -/
structure StepResult where
  Name : Str
  Status : Str
  Detail : Str
  Output : Str
deriving DecidableEq, Repr

/-- One arm of the `switch step` in `Engine.Check` (`check.go` lines
60–138): the produced `StepResult` and whether `failedIdx` was set. -/
def execCheckStep (name : Str) (env : StepEnv) : StepResult × Bool :=
  if name = "test".toList then
    match env.test with
    | .err m => (⟨name, "fail".toList, [], m⟩, true)
    | .summary status render =>
      if status = "FAIL".toList then (⟨name, "fail".toList, [], render⟩, true)
      else (⟨name, "pass".toList, [], []⟩, false)
  else if name = "lint".toList then
    match env.lint with
    | .unavail m => (⟨name, "unavailable".toList, m, []⟩, true)
    | .err m => (⟨name, "fail".toList, [], m⟩, true)
    | .issues n render =>
      if 0 < n then (⟨name, "fail".toList, [], render⟩, true)
      else (⟨name, "pass".toList, [], []⟩, false)
  else if name = "staticcheck".toList then
    match env.staticcheck with
    | .unavail m => (⟨name, "unavailable".toList, m, []⟩, true)
    | .err m => (⟨name, "fail".toList, [], m⟩, true)
    | .issues n render =>
      if 0 < n then (⟨name, "fail".toList, [], render⟩, true)
      else (⟨name, "pass".toList, [], []⟩, false)
  else (⟨name, "fail".toList, [], "unknown step: ".toList ++ name⟩, true)

/-- The check loop (`check.go` lines 53–143): results are seeded with
status `skipped`; each iteration overwrites its slot; the loop breaks
as soon as `failedIdx` is set. `i` is the current index, the returned
`Int` is `failedIdx` (`-1` when every step passed). -/
def checkLoop (env : Nat → StepEnv) : List Str → Nat → List StepResult × Int
  | [], _ => ([], -1)
  | step :: rest, i =>
    let (res, failed) := execCheckStep step (env i)
    if failed then
      (res :: rest.map (fun n => ⟨n, "skipped".toList, [], []⟩), (i : Int))
    else
      let (tl, fi) := checkLoop env rest (i + 1)
      (res :: tl, fi)

/-- The step phase of `Engine.Check` over the configured step list. -/
def CheckSteps (env : Nat → StepEnv) (steps : List Str) : List StepResult × Int :=
  checkLoop env steps 0

/-- A failing `execCheckStep` reports `fail` or `unavailable`; a
non-failing one reports `pass`. -/
theorem execCheckStep_status (name : Str) (env : StepEnv) :
    ((execCheckStep name env).2 = true →
      ((execCheckStep name env).1.Status = "fail".toList
        ∨ (execCheckStep name env).1.Status = "unavailable".toList))
    ∧ ((execCheckStep name env).2 = false →
      (execCheckStep name env).1.Status = "pass".toList) := by
  unfold execCheckStep
  split_ifs <;>
    first
    | (cases env.test with
       | err m => simp
       | summary st r => dsimp only; split <;> simp)
    | (cases env.lint with
       | unavail m => simp
       | err m => simp
       | issues n r => dsimp only; split <;> simp)
    | (cases env.staticcheck with
       | unavail m => simp
       | err m => simp
       | issues n r => dsimp only; split <;> simp)
    | simp

/-- Shape of the check loop's outcome: either everything passed and
`failedIdx` stayed `-1`, or the results split into passes, one
fail/unavailable step at the recorded index, and skipped steps. -/
theorem checkLoop_spec (env : Nat → StepEnv) (steps : List Str) : ∀ i0 : Nat,
    (checkLoop env steps i0).1.length = steps.length
    ∧ (((checkLoop env steps i0).2 = -1
          ∧ ∀ r ∈ (checkLoop env steps i0).1, r.Status = "pass".toList)
      ∨ (∃ k, k < steps.length ∧ (checkLoop env steps i0).2 = ((i0 + k : Nat) : Int)
          ∧ ∃ pre c post, (checkLoop env steps i0).1 = pre ++ c :: post
            ∧ pre.length = k
            ∧ (∀ r ∈ pre, r.Status = "pass".toList)
            ∧ (c.Status = "fail".toList ∨ c.Status = "unavailable".toList)
            ∧ (∀ r ∈ post, r.Status = "skipped".toList))) := by
  induction steps with
  | nil =>
    intro i0
    refine ⟨rfl, Or.inl ⟨rfl, by simp [checkLoop]⟩⟩
  | cons step rest ih =>
    intro i0
    obtain ⟨hstat_t, hstat_f⟩ := execCheckStep_status step (env i0)
    cases hfail : (execCheckStep step (env i0)).2 with
    | true =>
      have hexec : execCheckStep step (env i0) = ((execCheckStep step (env i0)).1, true) := by
        conv_lhs => rw [← Prod.mk.eta (p := execCheckStep step (env i0))]
        rw [hfail]
      have hloop : checkLoop env (step :: rest) i0
          = ((execCheckStep step (env i0)).1
              :: rest.map (fun n => ⟨n, "skipped".toList, [], []⟩), (i0 : Int)) := by
        unfold checkLoop
        rw [hexec]
        rfl
      rw [hloop]
      refine ⟨by simp, Or.inr ⟨0, by simp, by simp, [], _, _, rfl, rfl, by simp,
        hstat_t hfail, ?_⟩⟩
      intro r hr
      simp only [List.mem_map] at hr
      obtain ⟨n, -, hn⟩ := hr
      rw [← hn]
    | false =>
      have hexec : execCheckStep step (env i0) = ((execCheckStep step (env i0)).1, false) := by
        conv_lhs => rw [← Prod.mk.eta (p := execCheckStep step (env i0))]
        rw [hfail]
      have hloop : checkLoop env (step :: rest) i0
          = ((execCheckStep step (env i0)).1 :: (checkLoop env rest (i0 + 1)).1,
             (checkLoop env rest (i0 + 1)).2) := by
        conv_lhs => unfold checkLoop
        rw [hexec]
        rcases hrec : checkLoop env rest (i0 + 1) with ⟨tl, fi⟩
        rfl
      rw [hloop]
      obtain ⟨hlen, hcase⟩ := ih (i0 + 1)
      refine ⟨by simp [hlen], ?_⟩
      rcases hcase with ⟨hfi, hall⟩ | ⟨k, hk, hfi, pre, c, post, hsplit, hplen, hpre, hc, hpost⟩
      · exact Or.inl ⟨hfi, by
          intro r hr
          rcases List.mem_cons.mp hr with hr | hr
          · rw [hr]; exact hstat_f hfail
          · exact hall r hr⟩
      · refine Or.inr ⟨k + 1, by simp only [List.length_cons]; omega,
          by rw [hfi]; congr 1; omega,
          (execCheckStep step (env i0)).1 :: pre, c, post, by rw [hsplit]; rfl,
          by simp [hplen], ?_, hc, hpost⟩
        intro r hr
        rcases List.mem_cons.mp hr with hr | hr
        · rw [hr]; exact hstat_f hfail
        · exact hpre r hr

/-- Positional view of a decomposed list: an index is in the prefix,
at the pivot, or in the suffix. -/
theorem get_split {α : Type} (pre : List α) (c : α) (post : List α) :
    ∀ (l : Nat) (hl : l < (pre ++ c :: post).length),
      (l < pre.length → (pre ++ c :: post).get ⟨l, hl⟩ ∈ pre)
      ∧ (l = pre.length → (pre ++ c :: post).get ⟨l, hl⟩ = c)
      ∧ (pre.length < l → (pre ++ c :: post).get ⟨l, hl⟩ ∈ post) := by
  induction pre with
  | nil =>
    intro l hl
    refine ⟨by intro h0; simp at h0, ?_, ?_⟩
    · intro h0
      subst h0
      rfl
    · intro h0
      cases l with
      | zero => omega
      | succ m =>
        simp only [List.nil_append, List.get_cons_succ]
        exact List.get_mem _ _ _
  | cons a pre ih =>
    intro l hl
    cases l with
    | zero =>
      refine ⟨fun _ => ?_, by simp, by omega⟩
      simp only [List.cons_append, List.get_cons_zero]
      exact List.mem_cons_self _ _
    | succ m =>
      have hm : m < (pre ++ c :: post).length := by
        simpa [List.length_append] using Nat.lt_of_succ_lt_succ (by simpa using hl)
      obtain ⟨h1, h2, h3⟩ := ih m hm
      refine ⟨?_, ?_, ?_⟩
      · intro hlt
        simp only [List.cons_append, List.get_cons_succ]
        exact List.mem_cons_of_mem _ (h1 (by simpa using Nat.lt_of_succ_lt_succ hlt))
      · intro heq
        simp only [List.cons_append, List.get_cons_succ]
        exact h2 (by simpa using heq)
      · intro hgt
        simp only [List.cons_append, List.get_cons_succ]
        exact h3 (by simpa using Nat.lt_of_succ_lt_succ hgt)

/-- **C4, counterexample.** With steps `[test, lint]` and a failing
test, `failed_index = 0` but **two** steps are non-`pass`: the failed
one and the skipped one after it — not "exactly one", as the claim
states. -/
theorem claim_C4_cex :
    (CheckSteps (fun _ => ⟨.summary "FAIL".toList "boom".toList, .issues 0 [], .issues 0 []⟩)
        ["test".toList, "lint".toList]).2 = 0
    ∧ ((CheckSteps (fun _ => ⟨.summary "FAIL".toList "boom".toList, .issues 0 [], .issues 0 []⟩)
        ["test".toList, "lint".toList]).1.countP
          (fun r => !(r.Status == "pass".toList))) = 2 := by
  constructor
  · rfl
  · rfl

/-- **C4, amended.** In a check run that reaches the step phase: if any
step's status is `fail` or `unavailable`, every later step is
`skipped`; and whenever `failed_index ≥ 0`, exactly one step has status
`fail` or `unavailable` — the one at `failed_index` — with every
earlier step `pass` and every later step `skipped` (so the non-`pass`
statuses are that one step plus the skipped tail, not a single step). -/
theorem claim_C4 (env : Nat → StepEnv) (steps : List Str) (i j : Nat)
    (hi : i < (CheckSteps env steps).1.length)
    (hj : j < (CheckSteps env steps).1.length)
    (hij : i < j)
    (hfi : ((CheckSteps env steps).1.get ⟨i, hi⟩).Status = "fail".toList
         ∨ ((CheckSteps env steps).1.get ⟨i, hi⟩).Status = "unavailable".toList) :
    ((CheckSteps env steps).1.get ⟨j, hj⟩).Status = "skipped".toList
    ∧ (0 ≤ (CheckSteps env steps).2 →
        ∃ k : Nat, (CheckSteps env steps).2 = (k : Int)
          ∧ k < (CheckSteps env steps).1.length
          ∧ ∀ (l : Nat) (hl : l < (CheckSteps env steps).1.length),
              (l < k → ((CheckSteps env steps).1.get ⟨l, hl⟩).Status = "pass".toList)
              ∧ (l = k → (((CheckSteps env steps).1.get ⟨l, hl⟩).Status = "fail".toList
                  ∨ ((CheckSteps env steps).1.get ⟨l, hl⟩).Status = "unavailable".toList))
              ∧ (k < l → ((CheckSteps env steps).1.get ⟨l, hl⟩).Status = "skipped".toList)) := by
  obtain ⟨hlen, hcase⟩ := checkLoop_spec env steps 0
  rcases hcase with ⟨-, hall⟩ | ⟨k, hk, hfidx, pre, c, post, hsplit, hplen, hpre, hc, hpost⟩
  · -- all-pass case contradicts the fail/unavailable hypothesis at `i`
    exfalso
    have hpass := hall _ (List.get_mem (CheckSteps env steps).1 i hi)
    rcases hfi with hfi | hfi <;> rw [hpass] at hfi <;> exact absurd hfi (by decide)
  · -- one step failed at index k
    have hstatus : ∀ (l : Nat) (hl : l < (CheckSteps env steps).1.length),
        (l < k → ((CheckSteps env steps).1.get ⟨l, hl⟩).Status = "pass".toList)
        ∧ (l = k → (((CheckSteps env steps).1.get ⟨l, hl⟩).Status = "fail".toList
            ∨ ((CheckSteps env steps).1.get ⟨l, hl⟩).Status = "unavailable".toList))
        ∧ (k < l → ((CheckSteps env steps).1.get ⟨l, hl⟩).Status = "skipped".toList) := by
      intro l hl
      have hl' : l < (pre ++ c :: post).length := by rw [← hsplit]; exact hl
      obtain ⟨g1, g2, g3⟩ := get_split pre c post l hl'
      have hget : (CheckSteps env steps).1.get ⟨l, hl⟩ = (pre ++ c :: post).get ⟨l, hl'⟩ := by
        exact List.get_of_eq hsplit ⟨l, hl⟩
      refine ⟨?_, ?_, ?_⟩
      · intro hlt
        rw [hget]
        exact hpre _ (g1 (by omega))
      · intro heq
        rw [hget]
        have := g2 (by omega)
        rw [this]
        exact hc
      · intro hgt
        rw [hget]
        exact hpost _ (g3 (by omega))
    have hik : i = k := by
      obtain ⟨g1, g2, g3⟩ := hstatus i hi
      rcases Nat.lt_trichotomy i k with hlt | heq | hgt
      · exfalso
        have := g1 hlt
        rcases hfi with hfi | hfi <;> rw [this] at hfi <;> exact absurd hfi (by decide)
      · exact heq
      · exfalso
        have := g3 hgt
        rcases hfi with hfi | hfi <;> rw [this] at hfi <;> exact absurd hfi (by decide)
    refine ⟨(hstatus j hj).2.2 (by omega), fun _ => ⟨k, by simpa using hfidx, ?_, hstatus⟩⟩
    have hk2 : k < (checkLoop env steps 0).1.length := by
      rw [hlen]
      exact hk
    exact hk2

/-- Closed witness for `claim_C4`: steps `[test, lint]`, failing test;
the lint step (index 1) is skipped and the failure is at index 0. -/
theorem claim_C4_witness :
    ((CheckSteps (fun _ => ⟨.summary "FAIL".toList "boom".toList, .issues 0 [], .issues 0 []⟩)
        ["test".toList, "lint".toList]).1.get ⟨1, by decide⟩).Status = "skipped".toList
    ∧ (0 ≤ (CheckSteps
          (fun _ => ⟨.summary "FAIL".toList "boom".toList, .issues 0 [], .issues 0 []⟩)
          ["test".toList, "lint".toList]).2 →
        ∃ k : Nat,
          (CheckSteps (fun _ => ⟨.summary "FAIL".toList "boom".toList, .issues 0 [], .issues 0 []⟩)
            ["test".toList, "lint".toList]).2 = (k : Int)
          ∧ k < (CheckSteps
              (fun _ => ⟨.summary "FAIL".toList "boom".toList, .issues 0 [], .issues 0 []⟩)
              ["test".toList, "lint".toList]).1.length
          ∧ ∀ (l : Nat) (hl : l < (CheckSteps
                (fun _ => ⟨.summary "FAIL".toList "boom".toList, .issues 0 [], .issues 0 []⟩)
                ["test".toList, "lint".toList]).1.length),
              (l < k → (((CheckSteps
                  (fun _ => ⟨.summary "FAIL".toList "boom".toList, .issues 0 [], .issues 0 []⟩)
                  ["test".toList, "lint".toList]).1.get ⟨l, hl⟩).Status = "pass".toList))
              ∧ (l = k → ((((CheckSteps
                  (fun _ => ⟨.summary "FAIL".toList "boom".toList, .issues 0 [], .issues 0 []⟩)
                  ["test".toList, "lint".toList]).1.get ⟨l, hl⟩).Status = "fail".toList)
                  ∨ (((CheckSteps
                  (fun _ => ⟨.summary "FAIL".toList "boom".toList, .issues 0 [], .issues 0 []⟩)
                  ["test".toList, "lint".toList]).1.get ⟨l, hl⟩).Status = "unavailable".toList)))
              ∧ (k < l → (((CheckSteps
                  (fun _ => ⟨.summary "FAIL".toList "boom".toList, .issues 0 [], .issues 0 []⟩)
                  ["test".toList, "lint".toList]).1.get ⟨l, hl⟩).Status = "skipped".toList))) :=
  claim_C4 (fun _ => ⟨.summary "FAIL".toList "boom".toList, .issues 0 [], .issues 0 []⟩)
    ["test".toList, "lint".toList] 0 1 (by decide) (by decide) (by decide) (by decide)

/-! ## Audit pipeline (`internal/workflow/audit.go`)

Each of the five audit steps calls its helper (`runCoverage`,
`runComplexity`, `runDeadcode`, `runDupl`, `runVulncheck`) and treats
the outcome identically: `ErrToolUnavailable` gives `unavailable`, any
other error gives `error`, success gives `done` with the step's
formatted summary. The helper outcomes — external-tool behaviour — are
the environment, indexed by loop iteration; the `Format*Summary`
renderings travel opaquely in the `done` payload. -/

/-- How one audit helper returned. -/
inductive AuditOut
  | unavail (msg : Str)
  | err (msg : Str)
  | done (render : Str)
deriving DecidableEq, Repr

/-- `workflow.AuditStepResult`. -/
structure AuditStepResult where
  Name : Str
  Status : Str
  Detail : Str
  Output : Str
deriving DecidableEq, Repr

/-- The shared body of the five known-step arms of the `switch` in
`Engine.Audit` (`audit.go` lines 42–111): unavailability, error, or a
formatted summary. -/
def auditDispatch (name : Str) (out : AuditOut) : AuditStepResult :=
  match out with
  | .unavail m => ⟨name, "unavailable".toList, m, []⟩
  | .err m => ⟨name, "error".toList, m, []⟩
  | .done r => ⟨name, "done".toList, [], r⟩

/-- The step names `Engine.Audit` knows. -/
def auditKnownSteps : List Str :=
  ["coverage".toList, "complexity".toList, "deadcode".toList,
   "dupl".toList, "vulncheck".toList]

/-- One arm of the `switch step` in `Engine.Audit`, including the
`default` arm for unknown step names (`audit.go` lines 113–115). -/
def execAuditStep (name : Str) (out : AuditOut) : AuditStepResult :=
  if name = "coverage".toList then auditDispatch name out
  else if name = "complexity".toList then auditDispatch name out
  else if name = "deadcode".toList then auditDispatch name out
  else if name = "dupl".toList then auditDispatch name out
  else if name = "vulncheck".toList then auditDispatch name out
  else ⟨name, "error".toList, "unknown step: ".toList ++ name, []⟩

/-- The audit loop (`audit.go` lines 35–116): results are seeded with
status `skipped` and every iteration overwrites its own slot — there
is no break, so slot `i` depends only on `steps[i]` and that step's
own helper outcome. -/
def auditLoop (env : Nat → AuditOut) : List Str → Nat → List AuditStepResult
  | [], _ => []
  | step :: rest, i => execAuditStep step (env i) :: auditLoop env rest (i + 1)

/-- The step phase of `Engine.Audit` over the configured step list. -/
def AuditSteps (env : Nat → AuditOut) (steps : List Str) : List AuditStepResult :=
  auditLoop env steps 0

theorem auditLoop_length (env : Nat → AuditOut) (steps : List Str) :
    ∀ i0, (auditLoop env steps i0).length = steps.length := by
  induction steps with
  | nil => intro i0; rfl
  | cons s rest ih => intro i0; simpa [auditLoop] using ih (i0 + 1)

/-- Slot `i` of the audit loop is its own step run against its own
helper outcome — unaffected by any other step. -/
theorem auditLoop_get? (env : Nat → AuditOut) (steps : List Str) :
    ∀ i0 i, (auditLoop env steps i0).get? i
      = (steps.get? i).map fun s => execAuditStep s (env (i0 + i)) := by
  induction steps with
  | nil => intro i0 i; simp [auditLoop]
  | cons s rest ih =>
    intro i0 i
    cases i with
    | zero => simp [auditLoop]
    | succ m =>
      simp only [auditLoop, List.get?_cons_succ]
      rw [ih (i0 + 1) m]
      have harg : i0 + 1 + m = i0 + (m + 1) := by omega
      rw [harg]

/-- Every audit step result carries one of the three loop statuses. -/
theorem execAuditStep_status (name : Str) (out : AuditOut) :
    (execAuditStep name out).Status = "done".toList
    ∨ (execAuditStep name out).Status = "error".toList
    ∨ (execAuditStep name out).Status = "unavailable".toList := by
  unfold execAuditStep auditDispatch
  split_ifs <;> cases out <;> simp

/-- **C9.** Every configured audit step is executed regardless of
earlier steps' outcomes: slot `i` of the result vector is exactly its
own step applied to its own helper outcome. Each step ends with one of
`done`/`error`/`unavailable`/`skipped` (never `skipped` after the
loop). For a known step, a helper that reports its tool unresolvable
(`ErrToolUnavailable`) yields `unavailable` carrying the install
message, any other helper error yields `error`, and success yields
`done`. -/
theorem claim_C9 (env : Nat → AuditOut) (steps : List Str) (i : Nat)
    (name m r : Str) (hknown : name ∈ auditKnownSteps) :
    (AuditSteps env steps).length = steps.length
    ∧ (AuditSteps env steps).get? i
        = (steps.get? i).map (fun s => execAuditStep s (env i))
    ∧ (∀ res ∈ AuditSteps env steps,
        res.Status = "done".toList ∨ res.Status = "error".toList
        ∨ res.Status = "unavailable".toList ∨ res.Status = "skipped".toList)
    ∧ execAuditStep name (.unavail m) = ⟨name, "unavailable".toList, m, []⟩
    ∧ execAuditStep name (.err m) = ⟨name, "error".toList, m, []⟩
    ∧ execAuditStep name (.done r) = ⟨name, "done".toList, [], r⟩ := by
  have hdisp : ∀ out, execAuditStep name out = auditDispatch name out := by
    have hk : name = "coverage".toList ∨ name = "complexity".toList
        ∨ name = "deadcode".toList ∨ name = "dupl".toList
        ∨ name = "vulncheck".toList := by
      simpa [auditKnownSteps] using hknown
    intro out
    rcases hk with h | h | h | h | h <;> rw [h] <;> rfl
  refine ⟨auditLoop_length env steps 0, by simpa using auditLoop_get? env steps 0 i,
    ?_, by rw [hdisp]; rfl, by rw [hdisp]; rfl, by rw [hdisp]; rfl⟩
  intro res hres
  have : ∀ (ss : List Str) (l : Nat), res ∈ auditLoop env ss l →
      res.Status = "done".toList ∨ res.Status = "error".toList
      ∨ res.Status = "unavailable".toList := by
    intro ss
    induction ss with
    | nil => intro l h; simp [auditLoop] at h
    | cons s rest ih =>
      intro l h
      rcases List.mem_cons.mp h with h | h
      · rw [h]; exact execAuditStep_status s (env l)
      · exact ih (l + 1) h
  rcases this steps 0 hres with h | h | h
  · exact Or.inl h
  · exact Or.inr (Or.inl h)
  · exact Or.inr (Or.inr (Or.inl h))

/-- Closed witness for `claim_C9`: two steps, the first erroring and
the second succeeding — both executed, statuses `error` then `done`;
`coverage` is a known step. -/
theorem claim_C9_witness :
    (AuditSteps (fun i => if i = 0 then .err "boom".toList else .done "ok".toList)
        ["complexity".toList, "coverage".toList]).length = 2
    ∧ (AuditSteps (fun i => if i = 0 then .err "boom".toList else .done "ok".toList)
        ["complexity".toList, "coverage".toList]).get? 1
        = (["complexity".toList, "coverage".toList].get? 1).map
            (fun s => execAuditStep s
              (if (1 : Nat) = 0 then .err "boom".toList else .done "ok".toList))
    ∧ (∀ res ∈ AuditSteps (fun i => if i = 0 then .err "boom".toList else .done "ok".toList)
          ["complexity".toList, "coverage".toList],
        res.Status = "done".toList ∨ res.Status = "error".toList
        ∨ res.Status = "unavailable".toList ∨ res.Status = "skipped".toList)
    ∧ execAuditStep "coverage".toList (.unavail "gocognit is required but not installed.".toList)
        = ⟨"coverage".toList, "unavailable".toList,
           "gocognit is required but not installed.".toList, []⟩
    ∧ execAuditStep "coverage".toList (.err "gocognit is required but not installed.".toList)
        = ⟨"coverage".toList, "error".toList,
           "gocognit is required but not installed.".toList, []⟩
    ∧ execAuditStep "coverage".toList (.done "summary".toList)
        = ⟨"coverage".toList, "done".toList, [], "summary".toList⟩ :=
  claim_C9 (fun i => if i = 0 then .err "boom".toList else .done "ok".toList)
    ["complexity".toList, "coverage".toList] 1
    "coverage".toList "gocognit is required but not installed.".toList
    "summary".toList (by decide)

end Workflow

end Governor
